import Mathlib

/-!
# Verification of the `optimal-yahtzee-extreme` decision core

A shallow embedding, in Lean 4, of the parts of the Rust sources that the
claims under scrutiny are about:

* `src/global.rs` — basic types and game constants;
* `src/hands.rs` — hand scorers (`identical`, `generic_identical`);
* `src/yahtzee_bonus_rules.rs` — the `FORCED_JOKER` bonus policy (this file of
  the repository uses score-valued scorecards where a negative entry means
  "unused");
* `src/strategy.rs` — `probability_to_roll`, `choose_reroll`, `choose_field`,
  `State.compact_fmt` and their data model.

Modelling conventions:

* Machine integers (`u8`, `u16`, `usize`) are modelled as `ℕ`, and `i8`/`i16`
  as `ℤ`.  None of the claims concerns wrap-around behaviour; where the Rust
  code can underflow an unsigned subtraction (a panic in a debug build) the
  model returns an explicit error value, and this is noted at the definition.
* Rust floats (`ArchFloat`) are modelled as `ℚ`; the spec itself describes the
  computation as "enumerating probabilities exactly as rationals of integer
  counts".
* `HashMap`s are modelled as association lists (insertion order; the claims
  under scrutiny do not depend on map iteration order).
* Indexing that can panic in Rust (`v[i]`) is modelled with `List.getD`; the
  theorems carry hypotheses keeping the inputs inside the panic-free domain of
  the Rust code.
* The mutual recursion `choose_reroll` ↔ `choose_field` is bottomless for
  pathological `rerolls` arguments, so the model adds an explicit fuel
  parameter (first argument); `none` means the computation did not finish
  within the given fuel.  Fuel is threaded structurally so that all
  definitions stay kernel-computable.
* The Rust functions are memoized, and `choose_field`/`choose_reroll` run
  their candidate evaluation as a rayon parallel reduction; both are
  observationally pure, and the model is the sequential semantics
  (a left fold for `reduce_with`).
-/

namespace Yahtzee

/-- `global.rs`: `type Pip = u8` (number on a die). -/
abbrev Pip := ℕ

/-- `global.rs`: `type Die = (Pip, Pip)` (minimum and maximum pip). -/
abbrev Die := Pip × Pip

/-- `global.rs`: `type Frequency = u8`. -/
abbrev Frequency := ℕ

/-- `global.rs`: `type Score = u16`. -/
abbrev Score := ℕ

/-- `global.rs`: `const US: usize = 0`. -/
def US : ℕ := 0

/-- `global.rs`: `const LS: usize = 1`. -/
def LS : ℕ := 1

/-- `global.rs`: `const YAHTZEE_INDEX: usize = 5`. -/
def YAHTZEE_INDEX : ℕ := 5

/-- `global.rs`: `const REROLLS: i8 = 2`. -/
def REROLLS : ℤ := 2

/-- Modelled from the spec: `strategy.rs` starts a fresh turn with
`choose_reroll(…, THROWS - 1, …)` but the constant `THROWS` is not defined in
the provided sources; the spec (§4.4, §6 and the glossary) fixes a fresh turn
to begin with `REROLLS = 2` rerolls remaining, hence `THROWS = 3`. -/
def THROWS : ℤ := REROLLS + 1

/-! ## `hands.rs` -/

/-- The run collector inside `hands.rs::identical`: walk the (sorted) hand,
count runs of equal adjacent pips, and keep the lengths of the runs whose
count exceeds 1.  `p` is the pip of the current run and `c` its count so
far. -/
def identicalGo : List Pip → Pip → ℕ → List Frequency
  | [], _, c => if 1 < c then [c] else []
  | q :: rest, p, c =>
    if q = p then identicalGo rest p (c + 1)
    else (if 1 < c then [c] else []) ++ identicalGo rest q 1

/-- `hands.rs::identical`: frequency analysis over a hand; vector of run
frequencies `> 1`, sorted ascending (`groups.sort_unstable()`). -/
def identical (hand : List Pip) : List Frequency :=
  List.insertionSort (· ≤ ·)
    (match hand with
     | [] => []
     | p :: rest => identicalGo rest p 1)

/-- The greedy matching loop of `hands.rs::generic_identical`: walk the
required frequencies and the present groups in parallel with a single shared
iterator over the groups; a group satisfies a requirement when its frequency
is at least the required one, and every consumed group is gone for later
requirements. -/
def greedyMatch : List Frequency → List Frequency → Bool
  | [], _ => true
  | _ :: _, [] => false
  | r :: rs, g :: gs => if r ≤ g then greedyMatch rs gs else greedyMatch (r :: rs) gs

/-- `hands.rs::generic_identical`. -/
def generic_identical (required : List Frequency) (score : List Pip → Score)
    (hand : List Pip) : Score :=
  if greedyMatch required (identical hand) then score hand else 0

/-! ## `yahtzee_bonus_rules.rs`

This source file predates the `(score, bonus)` policy interface used by
`strategy.rs`: its `ScoreCard` holds one signed score per field, a negative
entry meaning "unused", and a policy maps a scorecard and the Yahtzee's pip to
the list of scorecards the player may move to. -/

/-- The signed scorecard of `yahtzee_bonus_rules.rs` (`[Vec<Score>; 2]` with
signed scores, `-1` meaning unused). -/
abbrev SignedScoreCard := List (List ℤ)

/-- `global.rs`: `US_LENGTH = 6`. -/
def US_LENGTH : ℕ := 6

/-- `global.rs`: `LS_LENGTH = 7` (regular rules). -/
def LS_LENGTH : ℕ := 7

/-- `global.rs`: `YAHTZEE_SCORE = 50`. -/
def YAHTZEE_SCORE : ℤ := 50

/-- `yahtzee_bonus_rules.rs`: `YAHTZEE_BONUS = 100`. -/
def YAHTZEE_BONUS : ℤ := 100

/-- `global.rs`: `YAHTZEE_SIZE = 5`. -/
def YAHTZEE_SIZE : ℕ := 5

/-- `yahtzee_bonus_rules.rs::joker_fields`: indices and scores of the joker
fields (Full House, Small & Large Straight).  The Rust `HashMap` is only used
for lookups, so an association list is a faithful model. -/
def joker_fields : List (ℕ × ℤ) := [(2, 25), (3, 30), (4, 40)]

/-- Read entry `(sec, fld)` of a signed scorecard. -/
def cardGet (sc : SignedScoreCard) (sec fld : ℕ) : ℤ :=
  (sc.getD sec []).getD fld 0

/-- Write entry `(sec, fld)` of a signed scorecard. -/
def cardSet (sc : SignedScoreCard) (sec fld : ℕ) (v : ℤ) : SignedScoreCard :=
  sc.set sec ((sc.getD sec []).set fld v)

/-- `yahtzee_bonus_rules.rs::eligible`: the player is eligible for the bonus
when the Yahtzee field holds a positive score. -/
def eligible (sc : SignedScoreCard) : Bool :=
  0 < cardGet sc LS YAHTZEE_INDEX

/-- `yahtzee_bonus_rules.rs::FORCED_JOKER`. -/
def FORCED_JOKER (sc : SignedScoreCard) (pip : Pip) : List SignedScoreCard :=
  if ¬ eligible sc then []
  else
    let bonus_applied := cardSet sc LS YAHTZEE_INDEX (cardGet sc LS YAHTZEE_INDEX + YAHTZEE_BONUS)
    let upper_idx := pip - 1
    if cardGet sc US upper_idx < 0 then
      -- upper section was unused: must use it
      [cardSet bonus_applied US upper_idx ((YAHTZEE_SIZE * pip : ℕ) : ℤ)]
    else
      let score_cards := ((List.range LS_LENGTH).filter (fun fld => cardGet sc LS fld < 0)).map
        (fun fld => cardSet bonus_applied LS fld
          (match (joker_fields.lookup fld) with
           | some s => s
           | none => ((YAHTZEE_SIZE * pip : ℕ) : ℤ)))
      if score_cards.isEmpty then
        ((List.range US_LENGTH).filter (fun fld => cardGet sc US fld < 0)).map
          (fun fld => cardSet bonus_applied US fld 0)
      else score_cards

/-! ## `strategy.rs`: data model -/

/-- `strategy.rs::PartialHand`: dice kept together with their pips. -/
structure PartialHand where
  hand : List (Die × Pip)
deriving DecidableEq

deriving instance DecidableEq for Except

/-- `strategy.rs::State`.  `score : [Score; 2]` and the scorecard
`used : [Vec<bool>; 2]` are modelled as lists (the theorems carry the length-2
hypotheses where the shape matters). -/
structure State where
  score : List Score
  used : List (List Bool)
  scored_yahtzee : Bool
  chips : ℕ
deriving DecidableEq

/-- `field as i8` rendered by `format!` (the digit `0` or `1`). -/
def boolDigit (b : Bool) : String := if b then "1" else "0"

/-- The inner fold of `State::compact_fmt`: one section of the scorecard as a
contiguous string of `0`/`1` digits. -/
def sectionDigits (sec : List Bool) : String :=
  sec.foldl (fun a b => a ++ boolDigit b) ""

/-- `Iterator::reduce` with `format!("{},{}", a, b)`; `none` on an empty
iterator (where the Rust code `unwrap`s). -/
def reduceCommaJoin : List String → Option String
  | [] => none
  | s :: rest => some (rest.foldl (fun a b => a ++ "," ++ b) s)

/-- `strategy.rs::State::compact_fmt`.  The Rust format string is
`"{},{}{},{}"` applied to `score[0],score[1]`, the reduced used-vector
strings, `scored_yahtzee as i8`, and `chips`. -/
def State.compact_fmt (s : State) : String :=
  (toString (s.score.getD 0 0) ++ "," ++ toString (s.score.getD 1 0))
    ++ ","
    ++ ((reduceCommaJoin (s.used.map sectionDigits)).getD "")
    ++ boolDigit s.scored_yahtzee
    ++ "," ++ toString s.chips

/-- `strategy.rs::ProbabilitiesToRoll`: hash map from canonical hands to
probabilities, modelled as an association list. -/
structure ProbabilitiesToRoll where
  table : List (PartialHand × ℚ)
deriving DecidableEq

/-- `strategy.rs::RerollRecomm`. -/
structure RerollRecomm where
  hand : PartialHand
  state : State
  expectation : ℚ
deriving DecidableEq

/-- `strategy.rs::FieldRecomm` (`section` is a Lean keyword, so the field is
called `sec` here). -/
structure FieldRecomm where
  sec : ℕ
  field : ℕ
  state : State
  expectation : ℚ
deriving DecidableEq

/-- `rules::SectionRule` as used by `strategy.rs` (display name and scoring
function). -/
structure SectionRule where
  name : String
  function : List Pip → Score

/-- `rules::DiceRules` as used by `strategy.rs`: a short name and the ordered
dice multiset. -/
structure DiceRules where
  short_name : Char
  dice : List (Die × Frequency)

/-- `rules::USBonusRules` as used by `strategy.rs`. -/
structure USBonusRules where
  threshold : Score
  bonus : Score

/-- The Yahtzee-bonus policy record `bonus::Rules` as used by `strategy.rs`:
`(used scorecard, pip, section, field) → (score, bonus)`. -/
structure BonusRules where
  short_name : Char
  rules : List (List Bool) → Pip → ℕ → ℕ → Score × Score

/-- `rules::Rules` as used by `strategy.rs`. -/
structure Rules where
  short_name : Char
  dice : DiceRules
  chips : ℕ
  fields : List (List SectionRule)
  us_bonus : USBonusRules
  yahtzee_bonus : BonusRules

/-- Modelled from the spec (§4.3): the `NONE` policy of the
`yahtzee_bonus_rules` module in the interface consumed by `strategy.rs` (the
record itself is not among the provided sources).  `strategy.rs` only reads
its `short_name`, to detect "no bonus variant"; the policy function is never
invoked. -/
def NONE : BonusRules := ⟨'e', fun _ _ _ _ => (0, 0)⟩

/-! ## `strategy.rs::probability_to_roll` -/

/-- The ways `probability_to_roll` can panic in a debug build:
`mismatchHandRules` is the explicit `panic!("Mismatch between hand and
rules")`; `freqUnderflow` is the checked-arithmetic panic of `*freq -= 1` on a
`u8` frequency that is already `0`; `pipUnderflow` is the checked-arithmetic
panic of `max - min` in the `total` fold when `max < min`. -/
inductive RollError
  | mismatchHandRules
  | freqUnderflow
  | pipUnderflow
deriving DecidableEq

/-- One step of the leftover computation: scan `leftover` for the first entry
whose die equals `d` and decrement its frequency.  No entry at all is the
explicit mismatch panic; a present entry with frequency `0` is the `u8`
underflow. -/
def decrementDie : List (Die × Frequency) → Die → Except RollError (List (Die × Frequency))
  | [], _ => .error .mismatchHandRules
  | (d', f) :: rest, d =>
    if d = d' then
      match f with
      | 0 => .error .freqUnderflow
      | f' + 1 => .ok ((d', f') :: rest)
    else
      match decrementDie rest d with
      | .error e => .error e
      | .ok l => .ok ((d', f) :: l)

/-- The `'next_have` loop of `probability_to_roll`: subtract the dice of
`have` from the rules' dice list, one at a time. -/
def computeLeftover (dice : List (Die × Frequency)) : List (Die × Pip) → Except RollError (List (Die × Frequency))
  | [] => .ok dice
  | (d, _) :: rest =>
    match decrementDie dice d with
    | .error e => .error e
    | .ok l => computeLeftover l rest

/-- Append to every working hand every pip of one leftover die
(`(min..(max + 1)).map(...)` inside the `flat_map`). -/
def expandOne (mn mx : Pip) (hands : List PartialHand) : List PartialHand :=
  hands.flatMap (fun h =>
    (List.range' mn (mx + 1 - mn)).map (fun pip => PartialHand.mk (h.hand ++ [((mn, mx), pip)])))

/-- Iterate `expandOne` once per copy of the die (`for _ in 0..frequency`). -/
def expandCopies (mn mx : Pip) : ℕ → List PartialHand → List PartialHand
  | 0, hs => hs
  | f + 1, hs => expandCopies mn mx f (expandOne mn mx hs)

/-- The full enumeration loop over the leftover dice. -/
def expandAll (leftover : List (Die × Frequency)) (hs : List PartialHand) : List PartialHand :=
  leftover.foldl (fun acc df => expandCopies df.1.1 df.1.2 df.2 acc) hs

/-- The `total` fold: `∏ (max - min + 1)^frequency` over the leftover dice,
with the checked `u8` subtraction `max - min`. -/
def totalOutcomes : List (Die × Frequency) → Except RollError ℕ
  | [] => .ok 1
  | ((mn, mx), f) :: rest =>
    if mx < mn then .error .pipUnderflow
    else
      match totalOutcomes rest with
      | .error e => .error e
      | .ok t => .ok ((mx - mn + 1) ^ f * t)

/-- `hand.hand.sort_unstable_by_key(|&(_, pip)| pip)`: sort a hand by pip.
(The Rust sort is unstable, so the relative order of equal pips is
unspecified there; insertion sort is one faithful choice.) -/
def sortByPip (h : PartialHand) : PartialHand :=
  ⟨List.insertionSort (fun a b => a.2 ≤ b.2) h.hand⟩

/-- `probabilities.entry(hand).or_insert(Probability { p: 0.0 }).p += per`:
add `p` to the entry at key `k`, inserting the key if absent. -/
def addProb : List (PartialHand × ℚ) → PartialHand → ℚ → List (PartialHand × ℚ)
  | [], k, p => [(k, p)]
  | (k', p') :: rest, k, p =>
    if k = k' then (k', p' + p) :: rest else (k', p') :: addProb rest k p

/-- The accumulation loop of `probability_to_roll`: sort every enumerated hand
and add its probability share into the table. -/
def accumulate (hands : List PartialHand) (per : ℚ) : List (PartialHand × ℚ) :=
  hands.foldl (fun tbl h => addProb tbl (sortByPip h) per) []

/-- `strategy.rs::probability_to_roll`.  `Except.error` marks the inputs on
which the Rust function panics (in a debug build). -/
def probability_to_roll (hv : PartialHand) (rules : DiceRules) : Except RollError ProbabilitiesToRoll :=
  match computeLeftover rules.dice hv.hand with
  | .error e => .error e
  | .ok leftover =>
    let hands := expandAll leftover [hv]
    match totalOutcomes leftover with
    | .error e => .error e
    | .ok total =>
      .ok ⟨accumulate hands (1 / (total : ℚ))⟩

/-! ## `strategy.rs::choose_reroll` and `choose_field` -/

/-- Sum of the dice frequencies of the rules (the length of a full hand). -/
def totalFrequency (d : DiceRules) : ℕ := (d.dice.map (·.2)).sum

/-- `PartialHand { hand: Vec::new() }`. -/
def emptyHand : PartialHand := ⟨[]⟩

/-- The enumeration of unused `(section, field)` pairs at the top of
`choose_field`, in section-then-field order, each as a `FieldRecomm` seeded
with expectation `0` and the unchanged state. -/
def availableFields (state : State) : List FieldRecomm :=
  state.used.enum.flatMap (fun se =>
    se.2.enum.filterMap (fun fe =>
      if fe.2 then none else some ⟨se.1, fe.1, state, 0⟩))

/-- Placeholder for an out-of-range field lookup (where the Rust indexing
would panic); scores `0`. -/
def dummySectionRule : SectionRule := ⟨"", fun _ => 0⟩

/-- `(fields_rules[sec][fld].function)`. -/
def fieldFunction (rules : Rules) (sec fld : ℕ) : List Pip → Score :=
  ((rules.fields.getD sec []).getD fld dummySectionRule).function

/-- The `yahtzee_bonus` flag of `choose_field` (short-circuit `&&`, so the
lower-section Yahtzee scorer is only consulted when `scored_yahtzee` holds). -/
def yahtzeeFlag (state : State) (hand : List Pip) (rules : Rules) : Bool :=
  state.scored_yahtzee
    && (rules.yahtzee_bonus.short_name ≠ NONE.short_name : Bool)
    && decide (0 < fieldFunction rules LS YAHTZEE_INDEX hand)

/-- The `(score, bonus)` selection of `choose_field`: the Yahtzee-bonus policy
when the flag holds, the field's own scorer (with bonus `0`) otherwise.
`hand[0]` is modelled as `hand.getD 0 0`. -/
def scoreAndBonus (state : State) (hand : List Pip) (rules : Rules)
    (sec fld : ℕ) (flag : Bool) : Score × Score :=
  if flag then rules.yahtzee_bonus.rules state.used (hand.getD 0 0) sec fld
  else (fieldFunction rules sec fld hand, 0)

/-- `state.score[sec] += v` (out-of-range `sec` leaves the state unchanged
where Rust would panic). -/
def State.addScore (s : State) (sec : ℕ) (v : Score) : State :=
  { s with score := s.score.set sec (s.score.getD sec 0 + v) }

/-- `state.used[sec][fld] = true`. -/
def State.setUsed (s : State) (sec fld : ℕ) : State :=
  { s with used := s.used.set sec ((s.used.getD sec []).set fld true) }

/-- The terminal (`available_fields.len() == 1`) branch of `choose_field`:
apply score and bonus, then the upper-section bonus if the threshold is met.
Note that this branch of the source does not mark the field used. -/
def terminalField (state : State) (hand : List Pip) (rules : Rules)
    (flag : Bool) (last : FieldRecomm) : FieldRecomm :=
  let sb := scoreAndBonus state hand rules last.sec last.field flag
  let st1 := (state.addScore last.sec sb.1).addScore LS sb.2
  let finalState :=
    if rules.us_bonus.threshold ≤ st1.score.getD US 0 then
      st1.addScore US rules.us_bonus.bonus
    else st1
  ⟨last.sec, last.field, finalState, (finalState.score.sum : ℚ)⟩

/-- The per-candidate state update of the non-terminal branch of
`choose_field`: add score and bonus, mark the field used, and flip
`scored_yahtzee` when a positive score lands in the lower-section Yahtzee
field. -/
def applyFieldUpdate (state : State) (hand : List Pip) (rules : Rules)
    (flag : Bool) (sec fld : ℕ) : State :=
  let sb := scoreAndBonus state hand rules sec fld flag
  let st1 := ((state.addScore sec sb.1).addScore LS sb.2).setUsed sec fld
  if 0 < sb.1 ∧ sec = LS ∧ fld = YAHTZEE_INDEX then
    { st1 with scored_yahtzee := true }
  else st1

/-- `Option`-valued map over a list, failing as soon as one element fails
(models a computation every branch of which the Rust code runs). -/
def mapMO (f : α → Option β) : List α → Option (List β)
  | [] => some []
  | a :: rest =>
    match f a, mapMO f rest with
    | some b, some bs => some (b :: bs)
    | _, _ => none

/-- `reduce_with(|a, b| if a.expectation > b.expectation { a } else { b })` on
field recommendations, as a sequential left fold. -/
def reduceFR : List FieldRecomm → Option FieldRecomm
  | [] => none
  | x :: xs => some (xs.foldl (fun a b => if b.expectation < a.expectation then a else b) x)

/-- The candidate type of `choose_reroll`'s enumeration (`HandChance`). -/
structure HandChance where
  hand : PartialHand
  expectation : ℚ
deriving DecidableEq

/-- `strategy.rs::choose_field`, parameterized by the `choose_reroll`
continuation so that the fuel can be threaded structurally. -/
def chooseFieldAux (recur : State → PartialHand → ℤ → Option RerollRecomm)
    (state : State) (hv : PartialHand) (rules : Rules) : Option FieldRecomm :=
  let hand : List Pip := hv.hand.map (·.2)
  let available := availableFields state
  let flag := yahtzeeFlag state hand rules
  match available with
  | [last] => some (terminalField state hand rules flag last)
  | _ =>
    match mapMO (fun option =>
        let newState := applyFieldUpdate state hand rules flag option.sec option.field
        (recur newState emptyHand (THROWS - 1)).map
          (fun rr => FieldRecomm.mk option.sec option.field newState rr.expectation))
      available with
    | none => none
    | some results => reduceFR results

/-- `strategy.rs::choose_reroll`, with structural fuel as first argument.
`rerolls` counts down; `0`/`-2` are the base cases, and the chip branch is
guarded by `state.chips > 0 && rerolls == 0`. -/
def chooseRerollF : ℕ → State → PartialHand → ℤ → Rules → Option RerollRecomm
  | 0 => fun _ _ _ _ => none
  | n + 1 => fun state hv rerolls rules =>
    if rerolls = 0 ∨ rerolls = -2 then
      match chooseFieldAux (fun s h r => chooseRerollF n s h r rules) state hv rules with
      | none => none
      | some stop_now =>
        if 0 < state.chips ∧ rerolls = 0 then
          match chooseRerollF n { state with chips := state.chips - 1 } hv (rerolls - 1) rules with
          | none => none
          | some use_chip =>
            if stop_now.expectation < use_chip.expectation then some use_chip
            else some ⟨hv, stop_now.state, stop_now.expectation⟩
        else some ⟨hv, stop_now.state, stop_now.expectation⟩
    else
      let possible_hands := hv.hand.foldl
        (fun acc el => acc ++ acc.map (fun ph => PartialHand.mk (ph.hand ++ [el]))) [emptyHand]
      match mapMO (fun ph =>
          (if ph.hand.length = totalFrequency rules.dice then
            (chooseFieldAux (fun s h r => chooseRerollF n s h r rules) state hv rules).map
              (·.expectation)
          else
            match probability_to_roll ph rules.dice with
            | .error _ => none
            | .ok t =>
              (mapMO (fun hp =>
                  (chooseRerollF n state hp.1 (rerolls - 1) rules).map
                    (fun rr => hp.2 * rr.expectation))
                t.table).map (fun l => l.sum)
          ).map (fun e => HandChance.mk ph e))
        possible_hands with
      | none => none
      | some chances =>
        match chances with
        | [] => none
        | c :: cs =>
          some ⟨(cs.foldl (fun a b => if b.expectation < a.expectation then a else b) c).hand,
                state,
                (cs.foldl (fun a b => if b.expectation < a.expectation then a else b) c).expectation⟩

/-- `strategy.rs::choose_field` with fuel for its `choose_reroll`
continuations (the terminal branch needs no fuel). -/
def chooseFieldF (n : ℕ) (state : State) (hv : PartialHand) (rules : Rules) : Option FieldRecomm :=
  chooseFieldAux (fun s h r => chooseRerollF n s h r rules) state hv rules

/-! ## Spec-side definitions

Definitions in this section follow the words of the spec, not the source; they
exist to be compared against the source-derived definitions above. -/

/-- Modelled from the spec's words (§3): the canonical `PartialHand` order,
"sorted first by die kind then by pip", with die kinds `(min, max)` compared
lexicographically. -/
def keyOrder (x y : Die × Pip) : Prop :=
  x.1.1 < y.1.1 ∨ (x.1.1 = y.1.1 ∧ (x.1.2 < y.1.2 ∨ (x.1.2 = y.1.2 ∧ x.2 ≤ y.2)))

instance : DecidableRel keyOrder := fun _ _ => by
  unfold keyOrder; infer_instance

/-- A used-vector as a contiguous string of `0`/`1` digits, written directly
by recursion (the spec's reading of the collapsed section encoding). -/
def digitsOf : List Bool → String
  | [] => ""
  | b :: rest => boolDigit b ++ digitsOf rest

/-! ## Concrete fixtures for witnesses and counterexamples -/

/-- The single-die test rules of `strategy.rs::tests::test_choose_reroll`:
one coin, one lower-section field scoring `pip - 1`, two chips. -/
def toyRules1 : Rules :=
  { short_name := 'y', dice := ⟨'y', [((1, 2), 1)]⟩, chips := 2,
    fields := [[], [⟨"Throw 1", fun h => h.getD 0 0 - 1⟩]],
    us_bonus := ⟨2, 0⟩, yahtzee_bonus := NONE }

/-- Initial state of the `test_choose_reroll` scenario (two chips). -/
def toyState1 : State := ⟨[0, 0], [[], [false]], false, 2⟩

/-- The same state with no chips left. -/
def toyState0 : State := ⟨[0, 0], [[], [false]], false, 0⟩

/-- A hand that has not hit the 2 yet. -/
def unready : PartialHand := ⟨[((1, 2), 1)]⟩

/-- A hand that already shows the 2. -/
def ready : PartialHand := ⟨[((1, 2), 2)]⟩

/-- `choose_field` on `toyState1` and `unready`: the terminal recommendation
(zero points, nothing else to choose). -/
def toyStop : FieldRecomm := ⟨1, 0, toyState1, 0⟩

/-- The chip recommendation: reroll everything, expectation `1/2`, one chip
burnt. -/
def toyChip : RerollRecomm := ⟨emptyHand, { toyState1 with chips := 1 }, 1/2⟩

/-- Rules for the upper-section-bonus scenario: one coin, two upper-section
fields ("is it a 1" pays 1, "is it a 2" pays 2), bonus 10 at threshold 1, no
lower section, no chips. -/
def toyRules2 : Rules :=
  { short_name := 't', dice := ⟨'t', [((1, 2), 1)]⟩, chips := 0,
    fields := [[⟨"One", fun h => if h.getD 0 0 = 1 then 1 else 0⟩,
                ⟨"Two", fun h => if h.getD 0 0 = 2 then 2 else 0⟩], []],
    us_bonus := ⟨1, 10⟩, yahtzee_bonus := ⟨'t', fun _ _ _ _ => (0, 0)⟩ }

/-- Start state of the bonus scenario: both upper fields open. -/
def toyState2 : State := ⟨[0, 0], [[false, false], []], false, 0⟩

/-- A rolled 1 in the bonus scenario. -/
def oneHand : PartialHand := ⟨[((1, 2), 1)]⟩

/-- Two-kind dice rules (one d6 and one d10), the shape of the Extreme dice
set in miniature. -/
def twoKindDice : DiceRules := ⟨'m', [((1, 6), 1), ((0, 9), 1)]⟩

/-- The probability table rolled from nothing under `twoKindDice`. -/
def twoKindTable : List (PartialHand × ℚ) :=
  match probability_to_roll emptyHand twoKindDice with
  | .ok t => t.table
  | .error _ => []

/-- A key of `twoKindTable` that interleaves the two die kinds: the d6 shows
1, the d10 shows 2, and pip order puts the d6 first. -/
def mixedKey : PartialHand := ⟨[((1, 6), 1), ((0, 9), 2)]⟩

/-- A regular signed scorecard with only a Yahtzee of 50 recorded. -/
def demoCard : SignedScoreCard :=
  [[-1, -1, -1, -1, -1, -1], [-1, -1, -1, -1, -1, 50, -1]]

/-- The upper-section total after `choose_field` applies section `sec`, field
`fld` to a state whose upper total is `u`: the selected score lands in the
upper section only when `sec = US`, with no upper-section bonus term. -/
def usAfter (s : State) (hand : List Pip) (rules : Rules) (sec fld : ℕ) (u : ℕ) : ℕ :=
  if sec = US then u + (scoreAndBonus s hand rules sec fld (yahtzeeFlag s hand rules)).1 else u

/-- The lower-section total after `choose_field` applies section `sec`, field
`fld` to a state whose lower total is `l`: the Yahtzee bonus always lands in
the lower section, the selected score only when `sec = LS`. -/
def lsAfter (s : State) (hand : List Pip) (rules : Rules) (sec fld : ℕ) (l : ℕ) : ℕ :=
  if sec = US then l + (scoreAndBonus s hand rules sec fld (yahtzeeFlag s hand rules)).2
  else l + (scoreAndBonus s hand rules sec fld (yahtzeeFlag s hand rules)).1
         + (scoreAndBonus s hand rules sec fld (yahtzeeFlag s hand rules)).2

/-- The recommendation `choose_field` returns in the C5 bonus scenario:
choose "One" (upper section, field 0), reaching the threshold with no bonus
added. -/
def c5rec : FieldRecomm := ⟨0, 0, ⟨[1, 0], [[true, false], []], false, 0⟩, 25/2⟩

/-- The one-coin dice rules with the coin already in hand: the probability
table has the single entry "that full hand, probability 1". -/
def oneCoinOk : ProbabilitiesToRoll := ⟨[(⟨[((1, 2), 1)]⟩, 1)]⟩

/-! ## Generic helper lemmas -/

theorem mapMO_mem {f : α → Option β} :
    ∀ {l : List α} {bs : List β}, mapMO f l = some bs → ∀ b ∈ bs, ∃ a ∈ l, f a = some b := by
  intro l
  induction l with
  | nil => intro bs h b hb; simp [mapMO] at h; subst h; simp at hb
  | cons a rest ih =>
    intro bs h b hb
    simp only [mapMO] at h
    rcases hfa : f a with _ | b₀ <;> rw [hfa] at h
    · exact absurd h (by simp)
    rcases hrest : mapMO f rest with _ | bs₀ <;> rw [hrest] at h
    · exact absurd h (by simp)
    simp only [Option.some.injEq] at h
    subst h
    rcases List.mem_cons.mp hb with hb' | hb'
    · exact ⟨a, by simp, by rw [hfa, hb']⟩
    · obtain ⟨a', ha', hfa'⟩ := ih hrest b hb'
      exact ⟨a', by simp [ha'], hfa'⟩

theorem foldl_choice_mem (f : α → α → α) (hf : ∀ a b, f a b = a ∨ f a b = b) :
    ∀ (xs : List α) (x : α), xs.foldl f x ∈ x :: xs := by
  intro xs
  induction xs with
  | nil => intro x; simp
  | cons y ys ih =>
    intro x
    rw [List.foldl_cons]
    rcases hf x y with h' | h' <;> rw [h']
    · rcases List.mem_cons.mp (ih x) with h1 | h1 <;> simp [h1]
    · rcases List.mem_cons.mp (ih y) with h1 | h1 <;> simp [h1]

theorem getD_set_self {l : List α} {i : ℕ} {v d : α} (h : i < l.length) :
    (l.set i v).getD i d = v := by
  induction l generalizing i with
  | nil => simp at h
  | cons a rest ih =>
    cases i with
    | zero => simp [List.set, List.getD]
    | succ j => simpa [List.set, List.getD] using ih (by simpa using h)

theorem getD_set_ne {l : List α} {i j : ℕ} {v d : α} (h : i ≠ j) :
    (l.set i v).getD j d = l.getD j d := by
  induction l generalizing i j with
  | nil => simp [List.set]
  | cons a rest ih =>
    cases i with
    | zero => cases j with
      | zero => exact absurd rfl h
      | succ j' => simp [List.set, List.getD]
    | succ i' => cases j with
      | zero => simp [List.set, List.getD]
      | succ j' => simpa [List.set, List.getD] using ih (by omega)

/-! ## Claim C7: the FORCED_JOKER forced-upper case -/

theorem cardGet_cardSet_self {sc : SignedScoreCard} {s f : ℕ} {v : ℤ}
    (hs : s < sc.length) (hf : f < (sc.getD s []).length) :
    cardGet (cardSet sc s f v) s f = v := by
  unfold cardGet cardSet
  rw [getD_set_self hs, getD_set_self hf]

theorem cardGet_cardSet_ne_field {sc : SignedScoreCard} {s f f' : ℕ} {v : ℤ}
    (h : f ≠ f') : cardGet (cardSet sc s f v) s f' = cardGet sc s f' := by
  unfold cardGet cardSet
  by_cases hs : s < sc.length
  · rw [getD_set_self hs, getD_set_ne h]
  · rw [List.set_eq_of_length_le (by omega)]

theorem cardGet_cardSet_ne_sec {sc : SignedScoreCard} {s s' f f' : ℕ} {v : ℤ}
    (h : s ≠ s') : cardGet (cardSet sc s f v) s' f' = cardGet sc s' f' := by
  unfold cardGet cardSet
  rw [getD_set_ne h]

/-- Claim C7: under the `FORCED_JOKER` policy, for every eligible scorecard (a
positive Yahtzee already recorded) and every pip whose upper-section field is
still unused, the returned list of permitted scorecards is a single card: the
upper-section pip field receives `5 * pip`, the Yahtzee bonus of `100` is
added to the Yahtzee field, and every other entry — in particular every other
lower-section field — is unchanged, so no lower-section placement is
permitted. -/
theorem forcedJoker_upper_unused (sc : SignedScoreCard) (pip : Pip)
    (helig : 0 < cardGet sc LS YAHTZEE_INDEX)
    (hunused : cardGet sc US (pip - 1) < 0)
    (hUSlen : pip - 1 < (sc.getD US []).length)
    (hLSlen : YAHTZEE_INDEX < (sc.getD LS []).length) :
    ∃ c, FORCED_JOKER sc pip = [c]
      ∧ cardGet c US (pip - 1) = ((YAHTZEE_SIZE * pip : ℕ) : ℤ)
      ∧ cardGet c LS YAHTZEE_INDEX = cardGet sc LS YAHTZEE_INDEX + YAHTZEE_BONUS
      ∧ (∀ fld, fld ≠ YAHTZEE_INDEX → cardGet c LS fld = cardGet sc LS fld)
      ∧ (∀ fld, fld ≠ pip - 1 → cardGet c US fld = cardGet sc US fld) := by
  have hscUS : US < sc.length := by
    by_contra hc
    rw [List.getD_eq_default _ _ (by omega)] at hUSlen
    simp at hUSlen
  have hscLS : LS < sc.length := by
    by_contra hc
    rw [List.getD_eq_default _ _ (by omega)] at hLSlen
    unfold YAHTZEE_INDEX at hLSlen
    simp at hLSlen
  have hne : US ≠ LS := by unfold US LS; omega
  refine ⟨cardSet (cardSet sc LS YAHTZEE_INDEX (cardGet sc LS YAHTZEE_INDEX + YAHTZEE_BONUS))
      US (pip - 1) ((YAHTZEE_SIZE * pip : ℕ) : ℤ), ?_, ?_, ?_, ?_, ?_⟩
  · simp only [FORCED_JOKER]
    rw [if_neg (by simp [eligible, helig]), if_pos hunused]
  · exact cardGet_cardSet_self (by simpa [cardSet] using hscUS)
      (by unfold cardSet; rw [getD_set_ne hne.symm]; exact hUSlen)
  · rw [cardGet_cardSet_ne_sec hne, cardGet_cardSet_self hscLS hLSlen]
  · intro fld hfld
    rw [cardGet_cardSet_ne_sec hne, cardGet_cardSet_ne_field (fun h => hfld h.symm)]
  · intro fld hfld
    rw [cardGet_cardSet_ne_field (fun h => hfld h.symm), cardGet_cardSet_ne_sec hne.symm]

/-- Witness for C7: a fresh regular scorecard holding a Yahtzee of 50, with a
Yahtzee of aces rolled again; the single permitted move puts 5 into Aces and
adds 100 to the Yahtzee field. -/
theorem forcedJoker_upper_unused_witness :
    0 < cardGet demoCard LS YAHTZEE_INDEX ∧ cardGet demoCard US 0 < 0
    ∧ ∃ c, FORCED_JOKER demoCard 1 = [c]
        ∧ cardGet c US 0 = 5 ∧ cardGet c LS YAHTZEE_INDEX = 150 := by
  refine ⟨by decide, by decide, ?_⟩
  obtain ⟨c, hc, h1, h2, _, _⟩ :=
    forcedJoker_upper_unused demoCard 1 (by decide) (by decide) (by decide) (by decide)
  exact ⟨c, hc, by simpa using h1, by rw [h2]; decide⟩

/-! ## Claim C8: which inputs raise the MismatchHandRules panic -/

theorem decrementDie_mismatch_iff {dice : List (Die × Frequency)} {d : Die} :
    decrementDie dice d = .error .mismatchHandRules ↔ d ∉ dice.map (·.1) := by
  induction dice with
  | nil => simp [decrementDie]
  | cons df rest ih =>
    obtain ⟨d', f⟩ := df
    by_cases hd : d = d'
    · subst hd
      cases f <;> simp [decrementDie]
    · simp only [decrementDie, if_neg hd]
      rcases hrec : decrementDie rest d with e | l
      · rw [hrec] at ih
        simp only [List.map_cons, List.mem_cons]
        cases e <;> simp_all
      · rw [hrec] at ih
        simp only [List.map_cons, List.mem_cons]
        simp_all

theorem decrementDie_kinds {dice l : List (Die × Frequency)} {d : Die}
    (h : decrementDie dice d = .ok l) : l.map (·.1) = dice.map (·.1) := by
  induction dice generalizing l with
  | nil => simp [decrementDie] at h
  | cons df rest ih =>
    obtain ⟨d', f⟩ := df
    by_cases hd : d = d'
    · subst hd
      cases f with
      | zero => simp [decrementDie] at h
      | succ f' =>
        simp only [decrementDie, if_pos rfl] at h
        cases h
        simp
    · simp only [decrementDie, if_neg hd] at h
      rcases hrec : decrementDie rest d with e | l' <;> rw [hrec] at h
      · cases h
      · cases h
        simp [ih hrec]

theorem computeLeftover_no_mismatch :
    ∀ {hl : List (Die × Pip)} {dice : List (Die × Frequency)},
    (∀ e ∈ hl, e.1 ∈ dice.map (·.1)) →
    computeLeftover dice hl ≠ .error .mismatchHandRules := by
  intro hl
  induction hl with
  | nil => intro dice _ h; simp [computeLeftover] at h
  | cons dp rest ih =>
    intro dice hmem h
    obtain ⟨d, p⟩ := dp
    simp only [computeLeftover] at h
    rcases hdec : decrementDie dice d with e | l <;> simp only [hdec] at h
    · simp only [Except.error.injEq] at h
      subst h
      exact (decrementDie_mismatch_iff.mp hdec) (hmem (d, p) (by simp))
    · refine ih (fun e he => ?_) h
      rw [decrementDie_kinds hdec]
      exact hmem e (by simp [he])

theorem totalOutcomes_no_mismatch :
    ∀ {l : List (Die × Frequency)}, totalOutcomes l ≠ .error .mismatchHandRules := by
  intro l
  induction l with
  | nil => simp [totalOutcomes]
  | cons df rest ih =>
    obtain ⟨⟨mn, mx⟩, f⟩ := df
    simp only [totalOutcomes]
    split
    · simp
    · rcases h : totalOutcomes rest with e | t <;> rw [h] at ih <;> simp_all

/-- Claim C8 (amended): the `MismatchHandRules` panic is raised only when some
die of `have` has a kind absent from the rules' dice list; in particular, a
hand whose die kinds are all present never raises it, no matter how often it
repeats them, and a hand starting with an absent kind always does. -/
theorem probability_mismatch_kind_absent :
    (∀ (hv : PartialHand) (rules : DiceRules),
       (∀ e ∈ hv.hand, e.1 ∈ rules.dice.map (·.1)) →
       probability_to_roll hv rules ≠ .error .mismatchHandRules)
    ∧ (∀ (d : Die) (p : Pip) (rest : List (Die × Pip)) (rules : DiceRules),
       d ∉ rules.dice.map (·.1) →
       probability_to_roll ⟨(d, p) :: rest⟩ rules = .error .mismatchHandRules) := by
  constructor
  · intro hv rules hmem h
    simp only [probability_to_roll] at h
    rcases hlo : computeLeftover rules.dice hv.hand with e | leftover <;> simp only [hlo] at h
    · simp only [Except.error.injEq] at h
      subst h
      exact computeLeftover_no_mismatch hmem hlo
    · rcases ht : totalOutcomes leftover with e | t <;> simp only [ht] at h
      · simp only [Except.error.injEq] at h
        subst h
        exact totalOutcomes_no_mismatch ht
      · cases h
  · intro d p rest rules habs
    simp only [probability_to_roll, computeLeftover, decrementDie_mismatch_iff.mpr habs]

/-- Counterexample for C8: a hand holding the coin die twice against rules
with a single coin.  Subtracting the hand from the dice multiset underflows,
but the result is the checked-arithmetic underflow of `*freq -= 1`, not the
`MismatchHandRules` panic the claim requires. -/
theorem probability_overcount_not_mismatch :
    probability_to_roll ⟨[((1, 2), 1), ((1, 2), 1)]⟩ ⟨'x', [((1, 2), 1)]⟩
      = .error .freqUnderflow
    ∧ (Except.error .freqUnderflow : Except RollError ProbabilitiesToRoll)
      ≠ .error .mismatchHandRules := by
  exact ⟨by decide, by decide⟩

/-- Witness for C8: the over-count hand has all its kinds among the rules'
dice, so the amended theorem applies and rules out the mismatch panic; and the
repository's own panic test (`test_probability_to_roll_panic`, a d6 against an
empty dice list) hits the mismatch branch. -/
theorem probability_mismatch_kind_absent_witness :
    (∀ e ∈ (⟨[((1, 2), 1), ((1, 2), 1)]⟩ : PartialHand).hand,
       e.1 ∈ (⟨'x', [((1, 2), 1)]⟩ : DiceRules).dice.map (·.1))
    ∧ probability_to_roll ⟨[((1, 2), 1), ((1, 2), 1)]⟩ ⟨'x', [((1, 2), 1)]⟩
        ≠ .error .mismatchHandRules
    ∧ probability_to_roll ⟨[((1, 6), 1)]⟩ ⟨'x', []⟩ = .error .mismatchHandRules :=
  ⟨by decide,
   probability_mismatch_kind_absent.1 _ _ (by decide),
   probability_mismatch_kind_absent.2 ((1, 6)) 1 [] ⟨'x', []⟩ (by decide)⟩

/-! ## Claim C9: the shape of the compact cache key -/

theorem strAppend_assoc (a b c : String) : a ++ b ++ c = a ++ (b ++ c) := by
  cases a with | mk d1 =>
  cases b with | mk d2 =>
  cases c with | mk d3 =>
  show String.mk ((d1 ++ d2) ++ d3) = String.mk (d1 ++ (d2 ++ d3))
  rw [List.append_assoc]

theorem foldl_boolDigit (sec : List Bool) :
    ∀ a : String, sec.foldl (fun x b => x ++ boolDigit b) a = a ++ digitsOf sec := by
  induction sec with
  | nil => intro a; simp [digitsOf, String.append_empty]
  | cons b rest ih =>
    intro a
    rw [List.foldl_cons, ih, digitsOf, strAppend_assoc]

theorem sectionDigits_eq_digitsOf (sec : List Bool) : sectionDigits sec = digitsOf sec := by
  rw [sectionDigits, foldl_boolDigit, String.empty_append]

/-- Claim C9 (amended): `State.compact_fmt` renders the six components
`score[0]`, `score[1]`, the upper used-vector digits, the lower used-vector
digits, the `scored_yahtzee` digit and the chip count in that order, with a
comma between every pair of adjacent components except between the
lower-section digits and the `scored_yahtzee` digit, which are concatenated
directly. -/
theorem compact_fmt_shape (s : State) (us ls : List Bool) (hused : s.used = [us, ls]) :
    s.compact_fmt
      = toString (s.score.getD 0 0) ++ "," ++ toString (s.score.getD 1 0)
        ++ "," ++ digitsOf us ++ "," ++ digitsOf ls
        ++ boolDigit s.scored_yahtzee ++ "," ++ toString s.chips := by
  rw [State.compact_fmt, hused]
  simp only [List.map_cons, List.map_nil, reduceCommaJoin, List.foldl_cons, List.foldl_nil,
    Option.getD_some, sectionDigits_eq_digitsOf]
  rw [← strAppend_assoc, ← strAppend_assoc]

/-- Counterexample for C9: on the state with scores 3 and 4, one used upper
field, one unused lower field, a recorded Yahtzee and 7 chips, the code
renders `"3,4,1,01,7"`; the claim's all-comma-separated rendering would be
`"3,4,1,0,1,7"`, which is a different string. -/
theorem compact_fmt_missing_comma :
    (⟨[3, 4], [[true], [false]], true, 7⟩ : State).compact_fmt = "3,4,1,01,7"
    ∧ ("3,4,1,01,7" : String) ≠ "3,4,1,0,1,7" := by
  exact ⟨by decide, by decide⟩

/-- Witness for C9 (amended): the shape theorem instantiated at the
counterexample state. -/
theorem compact_fmt_shape_witness :
    (⟨[3, 4], [[true], [false]], true, 7⟩ : State).used = [[true], [false]]
    ∧ (⟨[3, 4], [[true], [false]], true, 7⟩ : State).compact_fmt
      = toString (3 : ℕ) ++ "," ++ toString (4 : ℕ) ++ "," ++ digitsOf [true]
        ++ "," ++ digitsOf [false] ++ boolDigit true ++ "," ++ toString (7 : ℕ) := by
  refine ⟨rfl, ?_⟩
  have h := compact_fmt_shape ⟨[3, 4], [[true], [false]], true, 7⟩ [true] [false] rfl
  simpa using h

/-! ## Claim C6: the identical-groups scorer -/

theorem greedyMatch_iff :
    ∀ (G R : List Frequency),
      greedyMatch R G = true ↔ ∃ g, g.Sublist G ∧ List.Forall₂ (· ≤ ·) R g := by
  intro G
  induction G with
  | nil =>
    intro R
    cases R with
    | nil => simp [greedyMatch]
    | cons r rs =>
      simp only [greedyMatch, Bool.false_eq_true, false_iff]
      rintro ⟨g, hsub, hm⟩
      rw [List.sublist_nil.mp hsub] at hm
      cases hm
  | cons g gs ih =>
    intro R
    cases R with
    | nil =>
      simp only [greedyMatch, true_iff]
      exact ⟨[], List.nil_sublist _, List.Forall₂.nil⟩
    | cons r rs =>
      simp only [greedyMatch]
      by_cases hrg : r ≤ g
      · rw [if_pos hrg, ih]
        constructor
        · rintro ⟨g', hsub, hm⟩
          exact ⟨g :: g', hsub.cons₂ g, List.Forall₂.cons hrg hm⟩
        · rintro ⟨gg, hsub, hm⟩
          cases hm with
          | cons hx hrest =>
            rename_i x grest
            cases hsub with
            | cons _ hsub' =>
              have : grest.Sublist gs :=
                List.Sublist.trans (List.sublist_cons_self x grest) hsub'
              exact ⟨grest, this, hrest⟩
            | cons₂ _ hsub' => exact ⟨grest, hsub', hrest⟩
      · rw [if_neg hrg, ih]
        constructor
        · rintro ⟨g', hsub, hm⟩
          exact ⟨g', hsub.cons g, hm⟩
        · rintro ⟨gg, hsub, hm⟩
          cases hm with
          | cons hx hrest =>
            rename_i x grest
            cases hsub with
            | cons _ hsub' => exact ⟨x :: grest, hsub', List.Forall₂.cons hx hrest⟩
            | cons₂ _ hsub' => exact absurd hx hrg

/-- Claim C6: `generic_identical` returns `v(hand)` exactly when each required
group size can be matched to a distinct group of the hand with at least that
frequency (a sublist of the group list, matched pointwise by `≤`), and `0`
otherwise; one group never satisfies two requirements, so a five-of-a-kind
scores `0` under the Full House requirements `[2, 3]`. -/
theorem generic_identical_matching :
    (∀ (required : List Frequency) (score : List Pip → Score) (hand : List Pip),
       (∃ g, g.Sublist (identical hand) ∧ List.Forall₂ (· ≤ ·) required g) →
       generic_identical required score hand = score hand)
    ∧ (∀ (required : List Frequency) (score : List Pip → Score) (hand : List Pip),
       (¬ ∃ g, g.Sublist (identical hand) ∧ List.Forall₂ (· ≤ ·) required g) →
       generic_identical required score hand = 0)
    ∧ generic_identical [2, 3] (fun _ => 25) [2, 2, 2, 2, 2] = 0 := by
  refine ⟨?_, ?_, by decide⟩
  · intro required score hand hex
    rw [generic_identical, if_pos ((greedyMatch_iff (identical hand) required).mpr hex)]
  · intro required score hand hnex
    rw [generic_identical,
      if_neg (fun hg => hnex ((greedyMatch_iff (identical hand) required).mp hg))]

/-- Witness for C6: a genuine full house `[2, 2, 3, 3, 3]` scores 25 under
`[2, 3]` (its groups `[2, 3]` match the requirements), while the
five-of-a-kind `[2, 2, 2, 2, 2]`, whose only group is `[5]`, matches no pair
of distinct groups and scores 0. -/
theorem generic_identical_matching_witness :
    (∃ g, g.Sublist (identical [2, 2, 3, 3, 3]) ∧ List.Forall₂ (· ≤ ·) [2, 3] g)
    ∧ generic_identical [2, 3] (fun _ => 25) [2, 2, 3, 3, 3] = 25
    ∧ (¬ ∃ g, g.Sublist (identical [2, 2, 2, 2, 2]) ∧ List.Forall₂ (· ≤ ·) [2, 3] g)
    ∧ generic_identical [2, 3] (fun _ => 25) [2, 2, 2, 2, 2] = 0 := by
  have hex : ∃ g, g.Sublist (identical [2, 2, 3, 3, 3]) ∧ List.Forall₂ (· ≤ ·) [2, 3] g := by
    refine ⟨[2, 3], ?_, ?_⟩
    · have : identical [2, 2, 3, 3, 3] = [2, 3] := by decide
      rw [this]
    · exact List.Forall₂.cons le_rfl (List.Forall₂.cons le_rfl List.Forall₂.nil)
  have hnex : ¬ ∃ g, g.Sublist (identical [2, 2, 2, 2, 2]) ∧ List.Forall₂ (· ≤ ·) [2, 3] g := by
    rintro ⟨g, hsub, hm⟩
    have hlen2 : g.length = 2 := hm.length_eq.symm
    have hident : identical [2, 2, 2, 2, 2] = [5] := by decide
    rw [hident] at hsub
    have hle : g.length ≤ 1 := by simpa using hsub.length_le
    omega
  exact ⟨hex, generic_identical_matching.1 _ _ _ hex,
    hnex, generic_identical_matching.2.1 _ _ _ hnex⟩

/-! ## Claims C2 and C4: the probability table -/

theorem addProb_sum (tbl : List (PartialHand × ℚ)) (k : PartialHand) (p : ℚ) :
    ((addProb tbl k p).map (·.2)).sum = (tbl.map (·.2)).sum + p := by
  induction tbl with
  | nil => simp [addProb]
  | cons e rest ih =>
    obtain ⟨k', p'⟩ := e
    by_cases hk : k = k'
    · simp only [addProb, if_pos hk, List.map_cons, List.sum_cons]
      ring
    · simp only [addProb, if_neg hk, List.map_cons, List.sum_cons, ih]
      ring

theorem addProb_pos {tbl : List (PartialHand × ℚ)} {k : PartialHand} {p : ℚ}
    (hp : 0 < p) (htbl : ∀ e ∈ tbl, 0 < e.2) : ∀ e ∈ addProb tbl k p, 0 < e.2 := by
  induction tbl with
  | nil =>
    intro e he
    simp only [addProb, List.mem_singleton] at he
    subst he
    exact hp
  | cons e₀ rest ih =>
    obtain ⟨k', p'⟩ := e₀
    intro e he
    by_cases hk : k = k'
    · simp only [addProb, if_pos hk, List.mem_cons] at he
      rcases he with he | he
      · subst he
        have := htbl (k', p') (by simp)
        simp only at this ⊢
        positivity
      · exact htbl e (by simp [he])
    · simp only [addProb, if_neg hk, List.mem_cons] at he
      rcases he with he | he
      · subst he
        exact htbl (k', p') (by simp)
      · exact ih (fun e' he' => htbl e' (by simp [he'])) e he

theorem addProb_keys {Q : PartialHand → Prop} {tbl : List (PartialHand × ℚ)}
    {k : PartialHand} {p : ℚ} (htbl : ∀ e ∈ tbl, Q e.1) (hk : Q k) :
    ∀ e ∈ addProb tbl k p, Q e.1 := by
  induction tbl with
  | nil =>
    intro e he
    simp only [addProb, List.mem_singleton] at he
    subst he
    exact hk
  | cons e₀ rest ih =>
    obtain ⟨k', p'⟩ := e₀
    intro e he
    by_cases hkk : k = k'
    · simp only [addProb, if_pos hkk, List.mem_cons] at he
      rcases he with he | he
      · subst he
        exact htbl (k', p') (by simp)
      · exact htbl e (by simp [he])
    · simp only [addProb, if_neg hkk, List.mem_cons] at he
      rcases he with he | he
      · subst he
        exact htbl (k', p') (by simp)
      · exact ih (fun e' he' => htbl e' (by simp [he'])) e he

theorem foldl_addProb_sum (per : ℚ) :
    ∀ (hands : List PartialHand) (tbl : List (PartialHand × ℚ)),
    (((hands.foldl (fun t h => addProb t (sortByPip h) per) tbl)).map (·.2)).sum
      = (tbl.map (·.2)).sum + hands.length * per := by
  intro hands
  induction hands with
  | nil => intro tbl; simp
  | cons h hs ih =>
    intro tbl
    rw [List.foldl_cons, ih, addProb_sum]
    simp only [List.length_cons]
    push_cast
    ring

theorem foldl_addProb_pos {per : ℚ} (hper : 0 < per) :
    ∀ (hands : List PartialHand) (tbl : List (PartialHand × ℚ)),
    (∀ e ∈ tbl, 0 < e.2) →
    ∀ e ∈ hands.foldl (fun t h => addProb t (sortByPip h) per) tbl, 0 < e.2 := by
  intro hands
  induction hands with
  | nil => intro tbl htbl; simpa using htbl
  | cons h hs ih =>
    intro tbl htbl
    rw [List.foldl_cons]
    exact ih _ (addProb_pos hper htbl)

theorem foldl_addProb_keys {per : ℚ} {Q : PartialHand → Prop}
    (hQ : ∀ h : PartialHand, Q (sortByPip h)) :
    ∀ (hands : List PartialHand) (tbl : List (PartialHand × ℚ)),
    (∀ e ∈ tbl, Q e.1) →
    ∀ e ∈ hands.foldl (fun t h => addProb t (sortByPip h) per) tbl, Q e.1 := by
  intro hands
  induction hands with
  | nil => intro tbl htbl; simpa using htbl
  | cons h hs ih =>
    intro tbl htbl
    rw [List.foldl_cons]
    exact ih _ (addProb_keys htbl (hQ h))

theorem expandOne_length (mn mx : Pip) (hs : List PartialHand) :
    (expandOne mn mx hs).length = hs.length * (mx + 1 - mn) := by
  induction hs with
  | nil => simp [expandOne]
  | cons h rest ih =>
    simp only [expandOne, List.flatMap_cons, List.length_append, List.length_map,
      List.length_range', List.length_cons] at ih ⊢
    rw [ih]
    ring

theorem expandCopies_length (mn mx : Pip) :
    ∀ (f : ℕ) (hs : List PartialHand),
    (expandCopies mn mx f hs).length = hs.length * (mx + 1 - mn) ^ f := by
  intro f
  induction f with
  | zero => intro hs; simp [expandCopies]
  | succ f' ih =>
    intro hs
    rw [expandCopies, ih, expandOne_length]
    ring

theorem totalOutcomes_expand :
    ∀ {leftover : List (Die × Frequency)} {t : ℕ},
    totalOutcomes leftover = .ok t →
    0 < t ∧ ∀ hs : List PartialHand, (expandAll leftover hs).length = hs.length * t := by
  intro leftover
  induction leftover with
  | nil =>
    intro t h
    simp only [totalOutcomes, Except.ok.injEq] at h
    subst h
    exact ⟨by omega, fun hs => by simp [expandAll]⟩
  | cons df rest ih =>
    intro t h
    obtain ⟨⟨mn, mx⟩, f⟩ := df
    simp only [totalOutcomes] at h
    by_cases hmm : mx < mn
    · rw [if_pos hmm] at h
      cases h
    · rw [if_neg hmm] at h
      rcases ht : totalOutcomes rest with e | t' <;> rw [ht] at h
      · cases h
      · simp only [Except.ok.injEq] at h
        subst h
        obtain ⟨hpos, hlen⟩ := ih ht
        refine ⟨?_, fun hs => ?_⟩
        · have h1 : (0 : ℕ) < (mx : ℕ) - (mn : ℕ) + 1 := by omega
          exact Nat.mul_pos (pow_pos h1 f) hpos
        · show (expandAll rest (expandCopies mn mx f hs)).length
            = hs.length * ((mx - mn + 1) ^ f * t')
          rw [hlen, expandCopies_length, Nat.sub_add_comm (Nat.le_of_not_lt hmm)]
          ring

/-- Claim C2: whenever `probability_to_roll` succeeds, the probabilities in
the returned table sum to exactly 1 (each of the `total` enumerated
completions contributing `1/total`), and every stored probability is strictly
positive. -/
theorem probability_sum_one_values_pos :
    ∀ (hv : PartialHand) (rules : DiceRules) (t : ProbabilitiesToRoll),
    probability_to_roll hv rules = .ok t →
    (t.table.map (·.2)).sum = 1 ∧ ∀ e ∈ t.table, 0 < e.2 := by
  intro hv rules t h
  simp only [probability_to_roll] at h
  rcases hlo : computeLeftover rules.dice hv.hand with e | leftover <;> simp only [hlo] at h
  · exact absurd h (by simp)
  rcases ht : totalOutcomes leftover with e | total <;> simp only [ht] at h
  · exact absurd h (by simp)
  simp only [Except.ok.injEq] at h
  subst h
  obtain ⟨hpos, hlen⟩ := totalOutcomes_expand ht
  have hposQ : (0 : ℚ) < (total : ℚ) := by exact_mod_cast hpos
  constructor
  · simp only [accumulate]
    rw [foldl_addProb_sum, hlen [hv]]
    simp only [List.map_nil, List.sum_nil, List.length_singleton, one_mul, zero_add]
    field_simp
  · intro e he
    simp only [accumulate] at he
    exact foldl_addProb_pos (by positivity) _ [] (by simp) e he

/-- Witness for C2: rolling with the single coin already in hand yields the
one-entry table with probability 1. -/
theorem probability_sum_one_values_pos_witness :
    probability_to_roll ⟨[((1, 2), 1)]⟩ ⟨'w', [((1, 2), 1)]⟩ = .ok oneCoinOk
    ∧ (oneCoinOk.table.map (·.2)).sum = 1 ∧ ∀ e ∈ oneCoinOk.table, 0 < e.2 := by
  have heval : probability_to_roll ⟨[((1, 2), 1)]⟩ ⟨'w', [((1, 2), 1)]⟩ = .ok oneCoinOk := by
    norm_num [probability_to_roll, computeLeftover, decrementDie, expandAll, expandCopies,
      expandOne, totalOutcomes, accumulate, addProb, sortByPip, oneCoinOk,
      List.insertionSort, List.orderedInsert]
  exact ⟨heval, (probability_sum_one_values_pos _ _ _ heval).1,
    (probability_sum_one_values_pos _ _ _ heval).2⟩

theorem sortByPip_sorted (h : PartialHand) :
    (sortByPip h).hand.Sorted (fun a b => a.2 ≤ b.2) := by
  haveI : IsTotal (Die × Pip) (fun a b => a.2 ≤ b.2) := ⟨fun a b => Nat.le_total _ _⟩
  haveI : IsTrans (Die × Pip) (fun a b => a.2 ≤ b.2) := ⟨fun a b c h1 h2 => le_trans h1 h2⟩
  exact List.sorted_insertionSort _ _

/-- Claim C4 (amended): every key in the table returned by a successful
`probability_to_roll` is sorted by pip (ascending); the sort is by pip only,
not by die kind first. -/
theorem probability_keys_pip_sorted :
    ∀ (hv : PartialHand) (rules : DiceRules) (t : ProbabilitiesToRoll),
    probability_to_roll hv rules = .ok t →
    ∀ e ∈ t.table, e.1.hand.Sorted (fun a b => a.2 ≤ b.2) := by
  intro hv rules t h
  simp only [probability_to_roll] at h
  rcases hlo : computeLeftover rules.dice hv.hand with e | leftover <;> simp only [hlo] at h
  · exact absurd h (by simp)
  rcases ht : totalOutcomes leftover with e | total <;> simp only [ht] at h
  · exact absurd h (by simp)
  simp only [Except.ok.injEq] at h
  subst h
  intro e he
  simp only [accumulate] at he
  exact foldl_addProb_keys (Q := fun k => k.hand.Sorted (fun a b => a.2 ≤ b.2))
    sortByPip_sorted _ [] (by simp) e he

/-- Counterexample for C4: under dice rules holding one d6 and one d10, the
table of `probability_to_roll` from an empty hand contains the key
`[((1,6),1), ((0,9),2)]` (a d6 showing 1 before a d10 showing 2).  That key is
in pip order, but not in the claim's die-kind-then-pip canonical order, since
the d10 kind `(0,9)` precedes the d6 kind `(1,6)`. -/
theorem probability_key_not_die_sorted :
    mixedKey ∈ twoKindTable.map (·.1) ∧ ¬ mixedKey.hand.Sorted keyOrder := by
  exact ⟨by decide, by decide⟩

/-- Witness for C4 (amended): the pip-sortedness theorem instantiated at the
one-coin table. -/
theorem probability_keys_pip_sorted_witness :
    probability_to_roll ⟨[((1, 2), 1)]⟩ ⟨'w', [((1, 2), 1)]⟩ = .ok oneCoinOk
    ∧ ∀ e ∈ oneCoinOk.table, e.1.hand.Sorted (fun a b => a.2 ≤ b.2) := by
  have heval : probability_to_roll ⟨[((1, 2), 1)]⟩ ⟨'w', [((1, 2), 1)]⟩ = .ok oneCoinOk := by
    norm_num [probability_to_roll, computeLeftover, decrementDie, expandAll, expandCopies,
      expandOne, totalOutcomes, accumulate, addProb, sortByPip, oneCoinOk,
      List.insertionSort, List.orderedInsert]
  exact ⟨heval, probability_keys_pip_sorted _ _ _ heval⟩

/-! ## Engine helper lemmas: `choose_field` and `choose_reroll` -/

theorem reduceFR_mem {l : List FieldRecomm} {r : FieldRecomm}
    (h : reduceFR l = some r) : r ∈ l := by
  cases l with
  | nil => cases h
  | cons x xs =>
    simp only [reduceFR, Option.some.injEq] at h
    subst h
    refine foldl_choice_mem _ (fun a b => ?_) xs x
    show (if b.expectation < a.expectation then a else b) = a
      ∨ (if b.expectation < a.expectation then a else b) = b
    split <;> simp

theorem State.addScore_chips (s : State) (i : ℕ) (v : Score) :
    (s.addScore i v).chips = s.chips := rfl

theorem State.setUsed_chips (s : State) (i j : ℕ) :
    (s.setUsed i j).chips = s.chips := rfl

theorem terminalField_chips {s : State} {hand : List Pip} {rules : Rules}
    {flag : Bool} {last : FieldRecomm} :
    (terminalField s hand rules flag last).state.chips = s.chips := by
  simp only [terminalField]
  split <;> rfl

theorem applyFieldUpdate_chips {s : State} {hand : List Pip} {rules : Rules}
    {flag : Bool} {sec fld : ℕ} :
    (applyFieldUpdate s hand rules flag sec fld).chips = s.chips := by
  simp only [applyFieldUpdate]
  split <;> rfl

/-- Every entry of `availableFields` carries a section index within the
`used` matrix. -/
theorem availableFields_sec_lt {s : State} {c : FieldRecomm}
    (h : c ∈ availableFields s) : c.sec < s.used.length := by
  simp only [availableFields, List.mem_flatMap] at h
  obtain ⟨se, hse, hc⟩ := h
  simp only [List.mem_filterMap] at hc
  obtain ⟨fe, _, hfe⟩ := hc
  by_cases hb : fe.2 = true
  · simp [hb] at hfe
  · rw [if_neg hb] at hfe
    injection hfe with h3
    have h1 := List.mem_enum_iff_getElem?.mp hse
    obtain ⟨h2, _⟩ := List.getElem?_eq_some_iff.mp h1
    rw [← h3]
    exact h2

/-- The scores after the non-terminal branch's state update: score and
Yahtzee bonus land per `usAfter`/`lsAfter`, with no upper-section bonus. -/
theorem applyFieldUpdate_score {s : State} {hand : List Pip} {rules : Rules}
    {sec fld : ℕ} {u l : ℕ} (hs : s.score = [u, l]) (hsec : sec < 2) :
    (applyFieldUpdate s hand rules (yahtzeeFlag s hand rules) sec fld).score
      = [usAfter s hand rules sec fld u, lsAfter s hand rules sec fld l] := by
  simp only [applyFieldUpdate]
  split <;> interval_cases sec <;>
    simp [State.addScore, State.setUsed, hs, usAfter, lsAfter, US, LS]

/-- The scores after the terminal branch: as in the non-terminal branch, plus
the upper-section bonus exactly when the threshold is met by the new upper
total. -/
theorem terminalField_score {s : State} {hand : List Pip} {rules : Rules}
    {last : FieldRecomm} {u l : ℕ} (hs : s.score = [u, l]) (hsec : last.sec < 2) :
    (terminalField s hand rules (yahtzeeFlag s hand rules) last).state.score
      = [usAfter s hand rules last.sec last.field u
          + (if rules.us_bonus.threshold ≤ usAfter s hand rules last.sec last.field u
             then rules.us_bonus.bonus else 0),
         lsAfter s hand rules last.sec last.field l] := by
  obtain ⟨sec, fld, lst, le⟩ := last
  simp only at hsec
  simp only [terminalField]
  interval_cases sec <;>
    (simp [State.addScore, hs, usAfter, lsAfter, US, LS]; split <;>
      simp [State.addScore])

/-- Structure of a successful `chooseFieldAux` result: either the terminal
branch applied to the unique available field, or (when the available list is
not a singleton) one of the non-terminal candidates, whose state is the
`applyFieldUpdate` of its own section and field. -/
theorem chooseFieldAux_cases {recur : State → PartialHand → ℤ → Option RerollRecomm}
    {s : State} {hv : PartialHand} {rules : Rules} {r : FieldRecomm}
    (h : chooseFieldAux recur s hv rules = some r) :
    (∃ last, availableFields s = [last]
       ∧ r = terminalField s (hv.hand.map (·.2)) rules
           (yahtzeeFlag s (hv.hand.map (·.2)) rules) last)
    ∨ ((∀ x : FieldRecomm, availableFields s ≠ [x])
       ∧ ∃ c ∈ availableFields s, ∃ e,
         r = ⟨c.sec, c.field,
              applyFieldUpdate s (hv.hand.map (·.2)) rules
                (yahtzeeFlag s (hv.hand.map (·.2)) rules) c.sec c.field, e⟩) := by
  simp only [chooseFieldAux] at h
  split at h
  · rename_i last heq
    simp only [Option.some.injEq] at h
    exact Or.inl ⟨last, heq, h.symm⟩
  · rename_i hne
    split at h
    · cases h
    · rename_i results heq1
      have hr := reduceFR_mem h
      obtain ⟨c, hc, hgc⟩ := mapMO_mem heq1 r hr
      obtain ⟨rr, hrr, hfr⟩ := Option.map_eq_some'.mp hgc
      exact Or.inr ⟨fun x hx => hne x hx, c, hc, rr.expectation, hfr.symm⟩

theorem chooseFieldAux_chips {recur : State → PartialHand → ℤ → Option RerollRecomm}
    {s : State} {hv : PartialHand} {rules : Rules} {r : FieldRecomm}
    (h : chooseFieldAux recur s hv rules = some r) : r.state.chips = s.chips := by
  rcases chooseFieldAux_cases h with ⟨last, _, rfl⟩ | ⟨_, c, _, e, rfl⟩
  · exact terminalField_chips
  · exact applyFieldUpdate_chips

/-- In the recursive case (`rerolls` neither `0` nor `-2`), a successful
`choose_reroll` hands the input state back verbatim. -/
theorem chooseRerollF_rec_state :
    ∀ {n : ℕ} {s : State} {hv : PartialHand} {r : ℤ} {rules : Rules} {rec : RerollRecomm},
    r ≠ 0 → r ≠ -2 → chooseRerollF n s hv r rules = some rec → rec.state = s := by
  intro n s hv r rules rec h0 h2 h
  cases n with
  | zero => exact absurd h (by simp [chooseRerollF])
  | succ n =>
    simp only [chooseRerollF] at h
    rw [if_neg (not_or.mpr ⟨h0, h2⟩)] at h
    split at h
    · cases h
    · split at h
      · cases h
      · cases Option.some.inj h
        rfl

/-- Claim C10 (amended): the recursive case of `choose_reroll` returns the
input state unchanged in every field; in the base cases the returned state
either keeps the chip count of the input (the stop branch, whose state is
`choose_field`'s post-application state) or is exactly the input with the
chip count decremented by one (the profitable-chip branch). -/
theorem chooseReroll_state_frame :
    (∀ (n : ℕ) (s : State) (hv : PartialHand) (r : ℤ) (rules : Rules) (rec : RerollRecomm),
       r ≠ 0 → r ≠ -2 → chooseRerollF n s hv r rules = some rec → rec.state = s)
    ∧ (∀ (n : ℕ) (s : State) (hv : PartialHand) (r : ℤ) (rules : Rules) (rec : RerollRecomm),
       (r = 0 ∨ r = -2) → chooseRerollF n s hv r rules = some rec →
       rec.state.chips = s.chips ∨ rec.state = { s with chips := s.chips - 1 }) := by
  constructor
  · exact fun n s hv r rules rec h0 h2 h => chooseRerollF_rec_state h0 h2 h
  · intro n s hv r rules rec hr h
    cases n with
    | zero => exact absurd h (by simp [chooseRerollF])
    | succ n =>
      simp only [chooseRerollF] at h
      rw [if_pos hr] at h
      split at h
      · cases h
      · rename_i stop heqstop
        split at h
        · rename_i hguard
          split at h
          · cases h
          · rename_i use_chip hequse
            split at h
            · cases Option.some.inj h
              right
              obtain ⟨hchips, hr0⟩ := hguard
              rw [hr0] at hequse
              exact chooseRerollF_rec_state (by decide) (by decide) hequse
            · cases Option.some.inj h
              left
              exact chooseFieldAux_chips heqstop
        · cases Option.some.inj h
          left
          exact chooseFieldAux_chips heqstop

/-- Claim C5 (amended): the upper-section bonus is added only at the terminal
move.  When more than one field is available, a successful `choose_field`
returns scores that are exactly the `usAfter`/`lsAfter` updates of the input
scores — with no `us_bonus` term, even if the new upper-section total has
reached the threshold.  When exactly one field is available, `us_bonus.bonus`
is added to the upper total exactly when that total (after the field's score)
meets `us_bonus.threshold`. -/
theorem chooseField_us_bonus_terminal_only :
    ∀ (n : ℕ) (s : State) (hv : PartialHand) (rules : Rules) (r : FieldRecomm)
      (u l : ℕ) (uu ll : List Bool),
    s.score = [u, l] → s.used = [uu, ll] →
    chooseFieldF n s hv rules = some r →
    (if (availableFields s).length = 1 then
      r.state.score
        = [usAfter s (hv.hand.map (·.2)) rules r.sec r.field u
            + (if rules.us_bonus.threshold
                 ≤ usAfter s (hv.hand.map (·.2)) rules r.sec r.field u
               then rules.us_bonus.bonus else 0),
           lsAfter s (hv.hand.map (·.2)) rules r.sec r.field l]
    else
      r.state.score
        = [usAfter s (hv.hand.map (·.2)) rules r.sec r.field u,
           lsAfter s (hv.hand.map (·.2)) rules r.sec r.field l]) := by
  intro n s hv rules r u l uu ll hs hu h
  rcases chooseFieldAux_cases h with ⟨last, hav, rfl⟩ | ⟨hne, c, hc, e, rfl⟩
  · have hmem : last ∈ availableFields s := by rw [hav]; exact List.mem_singleton_self _
    have hsec : last.sec < 2 := by
      have hlt := availableFields_sec_lt hmem
      rwa [hu, List.length_cons, List.length_cons, List.length_nil] at hlt
    rw [if_pos (by rw [hav]; rfl)]
    exact terminalField_score hs hsec
  · have hsec : c.sec < 2 := by
      have hlt := availableFields_sec_lt hc
      rwa [hu, List.length_cons, List.length_cons, List.length_nil] at hlt
    rw [if_neg (fun hcon => by
      obtain ⟨x, hx⟩ := List.length_eq_one.mp hcon
      exact hne x hx)]
    exact applyFieldUpdate_score hs hsec

section
attribute [local semireducible] Rat.add Rat.mul Rat.inv Rat.sub

/-- Claim C3 (the code's actual behaviour at the failing input): on the toy
game whose only remaining field is the lower-section "Throw 1", `choose_field`
on a hand showing 2 returns the score update (0 + 1 point in the lower
section) and expectation `sum(score) = 1` — but its returned state has the
`used` matrix unchanged from the input: the terminal branch never marks the
last field used, although the spec requires "Mark the field used". -/
theorem chooseField_terminal_leaves_field_unmarked :
    chooseFieldF 1 toyState0 ready toyRules1
      = some ⟨1, 0, ⟨[0, 1], [[], [false]], false, 0⟩, 1⟩
    ∧ (⟨[0, 1], [[], [false]], false, 0⟩ : State).used = toyState0.used
    ∧ availableFields toyState0 = [⟨1, 0, toyState0, 0⟩] := by
  exact ⟨by decide, rfl, rfl⟩

/-- Counterexample for C5: in the two-field bonus game (threshold 1, bonus
10), `choose_field` picks the upper field "One", whose score 1 reaches the
threshold — yet the returned upper total is 1, not 1 + 10: the bonus is not
added at a non-terminal move, only at the terminal one. -/
theorem chooseField_threshold_without_bonus :
    chooseFieldF 10 toyState2 oneHand toyRules2 = some c5rec
    ∧ toyRules2.us_bonus.threshold ≤ c5rec.state.score.getD US 0
    ∧ c5rec.state.score = [1, 0]
    ∧ toyRules2.us_bonus.bonus = 10 := by
  exact ⟨by decide, by decide, by decide, by decide⟩

/-- Witness for C5 (amended): the bonus-scenario instance: two fields open,
so the non-terminal branch applies and the returned scores are the
bonus-free `usAfter`/`lsAfter` updates. -/
theorem chooseField_us_bonus_terminal_only_witness :
    toyState2.score = [0, 0] ∧ toyState2.used = [[false, false], []]
    ∧ chooseFieldF 10 toyState2 oneHand toyRules2 = some c5rec
    ∧ c5rec.state.score
        = [usAfter toyState2 (oneHand.hand.map (·.2)) toyRules2 c5rec.sec c5rec.field 0,
           lsAfter toyState2 (oneHand.hand.map (·.2)) toyRules2 c5rec.sec c5rec.field 0] := by
  have heval : chooseFieldF 10 toyState2 oneHand toyRules2 = some c5rec := by decide
  have h := chooseField_us_bonus_terminal_only 10 toyState2 oneHand toyRules2 c5rec 0 0
    [false, false] [] rfl rfl heval
  rw [if_neg (by decide : ¬ (availableFields toyState2).length = 1)] at h
  exact ⟨rfl, rfl, heval, h⟩

/-- Counterexample for C10: at `rerolls = 0` with no chips (so no chip can be
spent), `choose_reroll` on the one-field toy game returns `choose_field`'s
updated state, which differs from the input state (the lower-section score
went from 0 to 1) even though no chip was consumed. -/
theorem chooseReroll_base_changes_state :
    chooseRerollF 2 toyState0 ready 0 toyRules1
      = some ⟨ready, ⟨[0, 1], [[], [false]], false, 0⟩, 1⟩
    ∧ (⟨[0, 1], [[], [false]], false, 0⟩ : State) ≠ toyState0
    ∧ (⟨[0, 1], [[], [false]], false, 0⟩ : State).chips = toyState0.chips := by
  exact ⟨rfl, by decide, by decide⟩

/-- Witness for C10 (amended): with one reroll left in the chipless toy game,
the recommendation is to reroll the coin, and the returned state is the input
state unchanged. -/
theorem chooseReroll_state_frame_witness :
    (1 : ℤ) ≠ 0 ∧ (1 : ℤ) ≠ -2
    ∧ chooseRerollF 3 toyState0 unready 1 toyRules1 = some ⟨emptyHand, toyState0, 1/2⟩
    ∧ (⟨emptyHand, toyState0, 1/2⟩ : RerollRecomm).state = toyState0 := by
  have heval : chooseRerollF 3 toyState0 unready 1 toyRules1
      = some ⟨emptyHand, toyState0, 1/2⟩ := by decide
  exact ⟨by decide, by decide, heval,
    chooseReroll_state_frame.1 3 toyState0 unready 1 toyRules1 _ (by decide) (by decide) heval⟩

/-- Claim C1: at `rerolls = 0` with a chip available (and a full hand),
`choose_reroll` spends a reroll chip exactly when the chip reroll's
expectation — `choose_reroll` on the state with `chips` decremented, the same
hand, and `rerolls = -1` — strictly exceeds the expectation of stopping now
(`choose_field` on the same state and hand); the returned chip count drops by
one exactly in that case, and at `rerolls = -2` the chip branch is not
consulted, so the sentinel chip path never spends a second chip. -/
theorem chooseReroll_chip_iff
    (n : ℕ) (s : State) (hv : PartialHand) (rules : Rules)
    (stop : FieldRecomm) (chip : RerollRecomm)
    (hchips : 0 < s.chips)
    (hfull : hv.hand.length = totalFrequency rules.dice)
    (hstop : chooseFieldF n s hv rules = some stop)
    (hchip : chooseRerollF n { s with chips := s.chips - 1 } hv (-1) rules = some chip) :
    chooseRerollF (n + 1) s hv 0 rules
      = some (if stop.expectation < chip.expectation then chip
              else ⟨hv, stop.state, stop.expectation⟩)
    ∧ (chooseRerollF (n + 1) s hv 0 rules).map (fun rec => rec.state.chips)
        = some (if stop.expectation < chip.expectation then s.chips - 1 else s.chips)
    ∧ chooseRerollF (n + 1) s hv (-2) rules = some ⟨hv, stop.state, stop.expectation⟩
    ∧ stop.state.chips = s.chips := by
  have hstop' : chooseFieldAux (fun s' h' r' => chooseRerollF n s' h' r' rules) s hv rules
      = some stop := hstop
  have hm1 : (0 : ℤ) - 1 = -1 := by norm_num
  have hchipstate : chip.state = { s with chips := s.chips - 1 } :=
    chooseRerollF_rec_state (by decide) (by decide) hchip
  have h1 : chooseRerollF (n + 1) s hv 0 rules
      = some (if stop.expectation < chip.expectation then chip
              else ⟨hv, stop.state, stop.expectation⟩) := by
    simp only [chooseRerollF, true_or, if_true]
    simp only [hstop', and_true]
    rw [if_pos hchips, hm1]
    simp only [hchip]
    by_cases hc : stop.expectation < chip.expectation <;> simp [hc]
  refine ⟨h1, ?_, ?_, chooseFieldAux_chips hstop'⟩
  · rw [h1]
    by_cases hc : stop.expectation < chip.expectation <;>
      simp [hc, hchipstate, chooseFieldAux_chips hstop']
  · simp only [chooseRerollF, or_true, if_true]
    simp only [hstop']
    rw [if_neg (fun hcon => absurd hcon.2 (by decide))]

/-- Witness for C1: the chip scenario of the repository's own
`test_choose_reroll`: one coin, two chips, a 1 showing and no rerolls left.
Stopping now is worth 0, the chip reroll is worth 1/2, so the chip is spent
and the returned state has one chip less. -/
theorem chooseReroll_chip_iff_witness :
    0 < toyState1.chips
    ∧ unready.hand.length = totalFrequency toyRules1.dice
    ∧ chooseFieldF 3 toyState1 unready toyRules1 = some toyStop
    ∧ chooseRerollF 3 { toyState1 with chips := toyState1.chips - 1 } unready (-1) toyRules1
        = some toyChip
    ∧ chooseRerollF 4 toyState1 unready 0 toyRules1 = some toyChip := by
  have hstop : chooseFieldF 3 toyState1 unready toyRules1 = some toyStop := by decide
  have hchip : chooseRerollF 3 { toyState1 with chips := toyState1.chips - 1 } unready (-1)
      toyRules1 = some toyChip := by decide
  have h := chooseReroll_chip_iff 3 toyState1 unready toyRules1 toyStop toyChip
    (by decide) (by decide) hstop hchip
  refine ⟨by decide, by decide, hstop, hchip, ?_⟩
  rw [h.1, if_pos (by decide : toyStop.expectation < toyChip.expectation)]

end

end Yahtzee
